import Mathlib

/-!
Verification of the ml-vis-frontend repository's self-hosted numeric routines.

The embeddings below translate the TypeScript source into Lean:
* `src/components/algorithms/dbscan.tsx` — `computeConvexHull` (Andrew's
  monotone chain), the cluster-grouping loop of `renderDBSCAN`, the
  defensive response handling of `fetchLabeledPoints`, and the dataset
  generation (`generateClusterData`, `TOTAL_POINTS`, noise fraction).
* `src/components/algorithms/knn.tsx` — the KNN classification performed in
  `handleCanvasClick` (squared Euclidean distances, sort, top-k, vote
  counting, tie-break by the first, i.e. closest, point of a tied label).
* `src/components/algorithms/plotlygraph.tsx` — the K-Means `step` centroid
  update and the SOM Gaussian neighbourhood influence.
* `src/components/algorithms/decision-tree.tsx` — the request URL of the
  tree-build fetch.
* perceptron/MLP activation tables — the scalar sigmoid and "softmax"
  activation functions.

Machine floating-point numbers are modelled by `ℚ` where the code only
performs field operations and comparisons, and by `ℝ` where it uses
transcendental functions (`exp`, `cos`, `sin`).
-/

namespace MlVis

/-- A 2-D point, as the `{x, y}` records used throughout the code. -/
abbrev Pt : Type := ℚ × ℚ

/-- `cross(o, a, b) = (a.x - o.x) * (b.y - o.y) - (a.y - o.y) * (b.x - o.x)`,
the orientation test from `computeConvexHull` in `dbscan.tsx`. -/
def cross (o a b : Pt) : ℚ :=
  (a.1 - o.1) * (b.2 - o.2) - (a.2 - o.2) * (b.1 - o.1)

/-- The sort order used by `computeConvexHull`:
`(a, b) => (a.x === b.x ? a.y - b.y : a.x - b.x)` — lexicographic on x then y. -/
def ptLe (a b : Pt) : Prop :=
  a.1 < b.1 ∨ (a.1 = b.1 ∧ a.2 ≤ b.2)

instance (a b : Pt) : Decidable (ptLe a b) := by
  unfold ptLe; infer_instance

theorem ptLe_refl (a : Pt) : ptLe a a := Or.inr ⟨rfl, le_refl _⟩

theorem ptLe_total (a b : Pt) : ptLe a b ∨ ptLe b a := by
  rcases lt_trichotomy a.1 b.1 with h | h | h
  · exact Or.inl (Or.inl h)
  · rcases le_total a.2 b.2 with h2 | h2
    · exact Or.inl (Or.inr ⟨h, h2⟩)
    · exact Or.inr (Or.inr ⟨h.symm, h2⟩)
  · exact Or.inr (Or.inl h)

theorem ptLe_trans {a b c : Pt} (h1 : ptLe a b) (h2 : ptLe b c) : ptLe a c := by
  rcases h1 with h1 | ⟨h1x, h1y⟩ <;> rcases h2 with h2 | ⟨h2x, h2y⟩
  · exact Or.inl (h1.trans h2)
  · exact Or.inl (h2x ▸ h1)
  · exact Or.inl (h1x ▸ h2)
  · exact Or.inr ⟨h1x.trans h2x, h1y.trans h2y⟩

theorem ptLe_antisymm {a b : Pt} (h1 : ptLe a b) (h2 : ptLe b a) : a = b := by
  rcases h1 with h1 | ⟨h1x, h1y⟩ <;> rcases h2 with h2 | ⟨h2x, h2y⟩
  · exact absurd h2 (lt_asymm h1)
  · exact absurd h1 (h2x ▸ lt_irrefl _)
  · exact absurd h2 (h1x ▸ lt_irrefl _)
  · exact Prod.ext h1x (le_antisymm h1y h2y)

theorem ptLe_x {a b : Pt} (h : ptLe a b) : a.1 ≤ b.1 := by
  rcases h with h | ⟨hx, _⟩
  · exact le_of_lt h
  · exact le_of_eq hx

/-- Strict version of `ptLe`. -/
def ptLt (a b : Pt) : Prop := ptLe a b ∧ a ≠ b

theorem ptLt_of_not_le {a b : Pt} (h : ¬ ptLe b a) : ptLt a b := by
  rcases ptLe_total a b with h1 | h1
  · exact ⟨h1, fun he => h (he ▸ ptLe_refl a)⟩
  · exact absurd h1 h

theorem ptLt_x {a b : Pt} (h : ptLt a b) : a.1 ≤ b.1 := ptLe_x h.1

instance : IsTotal Pt ptLe := ⟨ptLe_total⟩
instance : IsTrans Pt ptLe := ⟨fun _ _ _ => ptLe_trans⟩
instance : IsRefl Pt ptLe := ⟨ptLe_refl⟩

/-- The sort `points.sort((a, b) => a.x === b.x ? a.y - b.y : a.x - b.x)` of
`computeConvexHull`.  JavaScript's stable sort and insertion sort with the
same total order produce the same list here, since the comparator returns `0`
only on identical `(x, y)` pairs. -/
def sortLex (l : List Pt) : List Pt := List.insertionSort ptLe l

/-- One round of the `while (… cross(…) <= 0) pop()` loop of
`computeConvexHull`.  The stack is kept in reversed order: the head of the
list is the top of the stack (`lower[lower.length - 1]`). -/
def popWhile (p : Pt) : List Pt → List Pt
  | b :: a :: rest => if cross a b p ≤ 0 then popWhile p (a :: rest) else b :: a :: rest
  | l => l

/-- The hull-chain construction: fold the sorted points through the
pop-then-push loop.  The result is the chain with its last-pushed point at
the head (reversed relative to the `lower` / `upper` arrays in the source). -/
def buildChain (l : List Pt) : List Pt :=
  l.foldl (fun acc p => p :: popWhile p acc) []

/-- `computeConvexHull` from `dbscan.tsx`: fewer than 3 points are returned
unchanged; otherwise the monotone chain of the lexicographically sorted
points is built — `lower.pop(); upper.pop(); lower.concat(upper)`.
`(buildChain s).tail.reverse` is exactly `lower` with its last element
popped, in bottom-to-top order. -/
def computeConvexHull (points : List Pt) : List Pt :=
  if points.length < 3 then points
  else
    let sorted := sortLex points
    (buildChain sorted).tail.reverse ++ (buildChain sorted.reverse).tail.reverse

/-- "p lies inside or on the boundary of the polygon": p is on the left of or
on every directed edge of the (counter-clockwise) polygon, including the
closing edge from the last vertex back to the first. -/
def insideOrOn (poly : List Pt) (p : Pt) : Prop :=
  match poly with
  | [] => True
  | v :: _ => List.Chain' (fun a b => 0 ≤ cross a b p) (poly ++ [v])

instance (poly : List Pt) (p : Pt) : Decidable (insideOrOn poly p) := by
  unfold insideOrOn
  match poly with
  | [] => exact inferInstanceAs (Decidable True)
  | v :: l => exact inferInstanceAs (Decidable (List.Chain' _ _))

/-! ### Cross-product identities and sign lemmas

These are the geometric facts that drive the monotone-chain invariant:
all of them are polynomial identities over `ℚ` combined with sign reasoning
from the lexicographic order. -/

theorem cross_cocycle (a b p q : Pt) :
    cross a p q = cross b p q + cross a b q - cross a b p := by
  unfold cross; ring

/-- Popping preserves left-turns further down the chain: if the chain turns
strictly left at `b` (`cross a b c > 0`) and the new point `p` (beyond `c` in
the sort order) is strictly left of edge `b → c`, it is strictly left of
edge `a → b` as well. -/
theorem left_of_lower_edge {a b c p : Pt}
    (hab : ptLe a b) (hbc : ptLe b c) (hcp : ptLe c p)
    (h1 : 0 < cross a b c) (h2 : 0 < cross b c p) : 0 < cross a b p := by
  have hax := ptLe_x hab
  have hbx := ptLe_x hbc
  have hcx := ptLe_x hcp
  have key : cross a b p * (c.1 - b.1) =
      cross a b c * (p.1 - b.1) + cross b c p * (b.1 - a.1) := by
    unfold cross; ring
  rcases lt_or_eq_of_le hbx with hlt | heq
  · -- c.x > b.x : divide out the positive factor
    have hR : 0 < cross a b c * (p.1 - b.1) + cross b c p * (b.1 - a.1) := by
      have h3 : 0 < p.1 - b.1 := by linarith
      have h4 : 0 ≤ b.1 - a.1 := by linarith
      nlinarith
    nlinarith [key, hR]
  · -- c.x = b.x is impossible: the left turn forces c above b, and then p
    -- would have to be strictly to the left of b.
    exfalso
    rcases hbc with h | ⟨hx, hy⟩
    · exact absurd heq (ne_of_lt h)
    · have hc1 : cross a b c = (b.1 - a.1) * (c.2 - b.2) := by
        unfold cross; rw [← hx]; ring
      have hdy : 0 < c.2 - b.2 := by
        rcases lt_or_eq_of_le hy with h | h
        · linarith
        · rw [hc1, ← h] at h1; simp at h1
      have hc2 : cross b c p = -(c.2 - b.2) * (p.1 - b.1) := by
        unfold cross; rw [← hx]; ring
      rw [hc2] at h2
      have : p.1 < b.1 := by nlinarith
      have : b.1 ≤ p.1 := by rw [hx]; exact hcx
      linarith

/-- The point `q` (at or before the stop vertex `b` in the sort order, and on
the left of the surviving edge `a → b`) is on the left of the freshly pushed
edge `b → p`, given the stop condition `cross a b p > 0`. -/
theorem left_of_new_edge_low {a b p q : Pt}
    (hab : ptLe a b) (hbp : ptLe b p) (hqb : ptLe q b)
    (h1 : 0 < cross a b p) (h2 : 0 ≤ cross a b q) : 0 ≤ cross b p q := by
  have hax := ptLe_x hab
  have hpx := ptLe_x hbp
  have hqx := ptLe_x hqb
  have key : cross b p q * (b.1 - a.1) =
      cross a b q * (p.1 - b.1) + cross a b p * (b.1 - q.1) := by
    unfold cross; ring
  rcases lt_or_eq_of_le hax with hlt | heq
  · have hR : 0 ≤ cross a b q * (p.1 - b.1) + cross a b p * (b.1 - q.1) := by
      have h3 : 0 ≤ p.1 - b.1 := by linarith
      have h4 : 0 ≤ b.1 - q.1 := by linarith
      nlinarith
    nlinarith [key, hR]
  · -- a.x = b.x makes the stop condition impossible
    exfalso
    rcases hab with h | ⟨hx, hy⟩
    · exact absurd heq (ne_of_lt h)
    · have hc1 : cross a b p = -(b.2 - a.2) * (p.1 - a.1) := by
        unfold cross; rw [hx]; ring
      rw [hc1] at h1
      have hpa : 0 ≤ p.1 - a.1 := by rw [hx]; linarith
      nlinarith

/-- Transport across a popped edge (pure cocycle computation): if `q` is on
the left of edge `a → b`, `p` on its right or on it, and `q` on the left of
edge `b → p`, then `q` is on the left of edge `a → p`. -/
theorem left_transport {a b p q : Pt}
    (h1 : cross a b p ≤ 0) (h2 : 0 ≤ cross a b q) (h3 : 0 ≤ cross b p q) :
    0 ≤ cross a p q := by
  have := cross_cocycle a b p q
  linarith

/-- The wedge case: `q` lies (strictly) after `a` but not after `b` in the
sort order, on the left of edge `a → b`, while `p` (after `b`) lies on the
right of that edge or on it.  Then `q` is on the left of edge `a → p`. -/
theorem left_wedge {a b p q : Pt}
    (hab : ptLe a b) (hbp : ptLe b p) (haq : ptLt a q) (hqb : ptLe q b)
    (h2 : 0 ≤ cross a b q) (h3 : cross a b p ≤ 0) : 0 ≤ cross a p q := by
  have hax := ptLe_x hab
  have hpx := ptLe_x hbp
  have hqx := ptLe_x hqb
  have haqx := ptLt_x haq
  have key : cross a p q * (b.1 - a.1) =
      cross a b q * (p.1 - a.1) - cross a b p * (q.1 - a.1) := by
    unfold cross; ring
  rcases lt_or_eq_of_le hax with hlt | heq
  · have hR : 0 ≤ cross a b q * (p.1 - a.1) - cross a b p * (q.1 - a.1) := by
      have h4 : 0 ≤ p.1 - a.1 := by linarith
      have h5 : 0 ≤ q.1 - a.1 := by linarith
      nlinarith
    nlinarith [key, hR]
  · -- a.x = b.x : then also q.x = a.x and q is strictly above a
    have hqxa : q.1 = a.1 := le_antisymm (heq ▸ hqx) haqx
    have hqya : a.2 < q.2 := by
      rcases haq.1 with h | ⟨hx, hy⟩
      · exact absurd (hqxa ▸ h) (lt_irrefl _)
      · rcases lt_or_eq_of_le hy with h | h
        · exact h
        · exact absurd (Prod.ext hx h) haq.2
    have hc : cross a p q = (p.1 - a.1) * (q.2 - a.2) := by
      unfold cross; rw [hqxa]; ring
    rw [hc]
    have : 0 ≤ p.1 - a.1 := by rw [heq]; linarith
    nlinarith

/-! ### Stack invariants of the monotone-chain loop

The stack (`lower` resp. `upper` in the source) is represented reversed:
the head of the list is the most recently pushed point. -/

/-- The stack is non-increasing from top to bottom in the sort order. -/
def DescChain (r : List Pt) : Prop := List.Chain' (fun b a => ptLe a b) r

/-- Every point of `q`'s list is on the left of every stack edge, edges being
directed from deeper entries to shallower ones. -/
def EdgesLeft (q : Pt) (r : List Pt) : Prop :=
  List.Chain' (fun b a => 0 ≤ cross a b q) r

/-- Consecutive stack triples turn strictly left (reading bottom-up). -/
def Convex3 : List Pt → Prop
  | c :: b :: a :: l => 0 < cross a b c ∧ Convex3 (b :: a :: l)
  | _ => True

theorem Convex3.tail {x : Pt} {l : List Pt} (h : Convex3 (x :: l)) : Convex3 l := by
  match l with
  | [] => trivial
  | [_] => trivial
  | b :: a :: rest => exact h.2

theorem cross_snd_eq_thd (o a : Pt) : cross o a a = 0 := by unfold cross; ring

theorem cross_fst_eq_thd (o a : Pt) : cross o a o = 0 := by unfold cross; ring

theorem popWhile_ne_nil {p : Pt} {l : List Pt} (h : l ≠ []) : popWhile p l ≠ [] := by
  induction l with
  | nil => exact absurd rfl h
  | cons b t ih =>
    match t with
    | [] => simp [popWhile]
    | a :: rest =>
      rw [popWhile]
      split
      · exact ih (by simp)
      · simp

theorem mem_popWhile {p x : Pt} {l : List Pt} (h : x ∈ popWhile p l) : x ∈ l := by
  induction l with
  | nil => simpa [popWhile] using h
  | cons b t ih =>
    match t with
    | [] => simpa [popWhile] using h
    | a :: rest =>
      rw [popWhile] at h
      split at h
      · exact List.mem_cons_of_mem _ (ih h)
      · exact h

theorem getLast?_popWhile (p : Pt) (l : List Pt) :
    (popWhile p l).getLast? = l.getLast? := by
  induction l with
  | nil => rfl
  | cons b t ih =>
    match t with
    | [] => rfl
    | a :: rest =>
      rw [popWhile]
      split
      · rw [ih, List.getLast?_cons_cons]
      · rfl

theorem chain'_popWhile {R : Pt → Pt → Prop} {p : Pt} {l : List Pt}
    (h : List.Chain' R l) : List.Chain' R (popWhile p l) := by
  induction l with
  | nil => simpa [popWhile] using h
  | cons b t ih =>
    match t with
    | [] => simpa [popWhile] using h
    | a :: rest =>
      rw [popWhile]
      split
      · exact ih h.tail
      · exact h

theorem convex3_popWhile {p : Pt} {l : List Pt} (h : Convex3 l) :
    Convex3 (popWhile p l) := by
  induction l with
  | nil => simpa [popWhile] using h
  | cons b t ih =>
    match t with
    | [] => simpa [popWhile] using h
    | a :: rest =>
      rw [popWhile]
      split
      · exact ih h.tail
      · exact h

/-- When the pop loop finishes with at least two entries on the stack, the
stop condition holds at the top pair. -/
theorem popWhile_stop_cond {p : Pt} :
    ∀ (l : List Pt) (b a : Pt) (rest : List Pt),
      popWhile p l = b :: a :: rest → 0 < cross a b p := by
  intro l
  induction l with
  | nil => intro b a rest h; simp [popWhile] at h
  | cons b' t ih =>
    match t with
    | [] => intro b a rest h; simp [popWhile] at h
    | a' :: rest' =>
      intro b a rest h
      rw [popWhile] at h
      split at h
      · exact ih b a rest h
      · rename_i hc
        injection h with h1 h2
        injection h2 with h2 h3
        subst h1; subst h2
        exact lt_of_not_le hc

/-- Walking down a descending convex chain: if the new point `p` is strictly
left of the top edge, it is strictly left of every edge of the chain. -/
theorem descend_left {p : Pt} :
    ∀ (l : List Pt) (b a : Pt),
      DescChain (b :: a :: l) → Convex3 (b :: a :: l) →
      (∀ x ∈ b :: a :: l, ptLe x p) → 0 < cross a b p →
      List.Chain' (fun y x => 0 < cross x y p) (b :: a :: l) := by
  intro l
  induction l with
  | nil =>
    intro b a _ _ _ htop
    exact List.chain'_cons.mpr ⟨htop, List.chain'_singleton a⟩
  | cons c l' ih =>
    intro b a hdesc hconv hmem htop
    have hdl := List.chain'_cons.mp hdesc
    have hdl2 := List.chain'_cons.mp hdl.2
    have hnext : 0 < cross c a p := by
      refine left_of_lower_edge hdl2.1 hdl.1 (hmem b (by simp)) ?_ htop
      exact hconv.1
    exact List.chain'_cons.mpr
      ⟨htop, ih a c hdl.2 hconv.tail (fun x hx => hmem x (List.mem_cons_of_mem _ hx)) hnext⟩

/-- The pop loop transports the "left of the edge from the top to `p`"
property for processed points beyond the current top. -/
theorem popWhile_etop {P : List Pt} {p : Pt} :
    ∀ (l : List Pt),
      (∀ q ∈ P, EdgesLeft q l) →
      DescChain l →
      (∀ x ∈ l, x ∈ P) →
      (∀ q ∈ P, ptLe q p) →
      (∀ q ∈ P, ∀ t, l.head? = some t → ¬ ptLe q t → 0 ≤ cross t p q) →
      (∀ q ∈ P, ∀ t, (popWhile p l).head? = some t → ¬ ptLe q t → 0 ≤ cross t p q) := by
  intro l
  induction l with
  | nil => intro _ _ _ _ hE; simpa [popWhile] using hE
  | cons b t ih =>
    match t with
    | [] => intro _ _ _ _ hE; simpa [popWhile] using hE
    | a :: rest =>
      intro hhalf hdesc hsub hub hE
      rw [popWhile]
      split
      · rename_i hc
        refine ih (fun q hq => (hhalf q hq).tail) hdesc.tail
          (fun x hx => hsub x (List.mem_cons_of_mem _ hx)) hub ?_
        -- establish the property at the new top `a`
        intro q hq t2 ht hqa
        have hta : a = t2 := by simpa using ht
        subst hta
        have hab : ptLe a b := (List.chain'_cons.mp hdesc).1
        have habq : 0 ≤ cross a b q := (List.chain'_cons.mp (hhalf q hq)).1
        by_cases hqb : ptLe q b
        · exact left_wedge hab (hub b (hsub b (by simp))) (ptLt_of_not_le hqa) hqb habq hc
        · have hbp := hE q hq b rfl hqb
          exact left_transport hc habq hbp
      · exact hE

theorem mem_of_getLast?_some {l : List Pt} {m : Pt} (h : l.getLast? = some m) :
    m ∈ l := by
  have hm : m ∈ l.getLast? := h
  obtain ⟨hne, he⟩ := List.mem_getLast?_eq_getLast hm
  exact he ▸ List.getLast_mem hne

/-- The full invariant of the chain-building loop: `P` is the list of
processed points, `r` the current stack (top first). -/
structure Inv (P r : List Pt) : Prop where
  subset : ∀ x ∈ r, x ∈ P
  topmax : ∀ t, r.head? = some t → ∀ q ∈ P, ptLe q t
  botmin : ∀ m, r.getLast? = some m → ∀ q ∈ P, ptLe m q
  boteq  : r.getLast? = P.head?
  topeq  : r.head? = P.getLast?
  desc   : DescChain r
  convex : Convex3 r
  halfpl : ∀ q ∈ P, EdgesLeft q r

theorem inv_nil : Inv [] [] where
  subset := by simp
  topmax := by simp
  botmin := by simp
  boteq := rfl
  topeq := rfl
  desc := List.chain'_nil
  convex := trivial
  halfpl := by simp

theorem inv_step {P r : List Pt} {p : Pt} (h : Inv P r)
    (hub : ∀ q ∈ P, ptLe q p) : Inv (P ++ [p]) (p :: popWhile p r) := by
  have hsub' : ∀ x ∈ popWhile p r, x ∈ P := fun x hx => h.subset x (mem_popWhile hx)
  -- the E-property at the top of the popped stack
  have hE : ∀ q ∈ P, ∀ t, (popWhile p r).head? = some t → ¬ ptLe q t →
      0 ≤ cross t p q := by
    refine popWhile_etop r h.halfpl h.desc h.subset hub ?_
    intro q hq t ht hqt
    exact absurd (h.topmax t ht q hq) hqt
  -- the stop condition when at least two entries survive
  have hstop : ∀ b a rest, popWhile p r = b :: a :: rest → 0 < cross a b p :=
    fun b a rest he => popWhile_stop_cond r b a rest he
  -- the new top edge is respected by every processed point
  have htopedge : ∀ q ∈ P, ∀ t, (popWhile p r).head? = some t → 0 ≤ cross t p q := by
    intro q hq t ht
    by_cases hqt : ptLe q t
    · match hr : popWhile p r with
      | [] => rw [hr] at ht; exact absurd ht (by simp)
      | [b] =>
        rw [hr] at ht
        have hb : b = t := by simpa using ht
        subst hb
        have hbot : (popWhile p r).getLast? = some b := by rw [hr]; rfl
        rw [getLast?_popWhile] at hbot
        have hqb : q = b := ptLe_antisymm hqt (h.botmin b hbot q hq)
        rw [← hqb]
        exact le_of_eq (cross_fst_eq_thd q p).symm
      | b :: a :: rest =>
        rw [hr] at ht
        have hb : b = t := by simpa using ht
        subst hb
        have hdesc' : DescChain (b :: a :: rest) := hr ▸ chain'_popWhile h.desc
        have hhalf' : EdgesLeft q (b :: a :: rest) := hr ▸ chain'_popWhile (h.halfpl q hq)
        exact left_of_new_edge_low (List.chain'_cons.mp hdesc').1
          (hub b (hsub' b (by rw [hr]; simp)))
          hqt (hstop b a rest hr) (List.chain'_cons.mp hhalf').1
    · exact hE q hq t ht hqt
  constructor
  · -- subset
    intro x hx
    rcases List.mem_cons.mp hx with hx | hx
    · simp [hx]
    · exact List.mem_append_left _ (hsub' x hx)
  · -- topmax
    intro t ht q hq
    have : p = t := by simpa using ht
    subst this
    rcases List.mem_append.mp hq with hq | hq
    · exact hub q hq
    · simp at hq; subst hq; exact ptLe_refl _
  · -- botmin
    intro m hm q hq
    match hr : popWhile p r with
    | [] =>
      rw [hr] at hm
      have : p = m := by simpa using hm
      subst this
      -- the stack was empty, hence no point was processed yet
      have hrnil : r = [] := by
        by_contra hne
        exact popWhile_ne_nil hne hr
      have hP : P = [] := by
        have hbe := h.boteq
        rw [hrnil] at hbe
        exact List.head?_eq_none_iff.mp hbe.symm
      subst hP
      simp at hq
      subst hq
      exact ptLe_refl _
    | b :: rest' =>
      rw [hr, List.getLast?_cons_cons] at hm
      have hm' : r.getLast? = some m := by
        rw [← getLast?_popWhile p r, hr]
        exact hm
      rcases List.mem_append.mp hq with hq | hq
      · exact h.botmin m hm' q hq
      · simp at hq; subst hq
        exact hub m (h.subset m (mem_of_getLast?_some hm'))
  · -- boteq
    match hr : popWhile p r with
    | [] =>
      have hrnil : r = [] := by
        by_contra hne
        exact popWhile_ne_nil hne hr
      have hP : P = [] := by
        have hbe := h.boteq
        rw [hrnil] at hbe
        exact List.head?_eq_none_iff.mp hbe.symm
      subst hP
      simp [hr]
    | b :: rest' =>
      rw [List.getLast?_cons_cons]
      have h1 : (b :: rest').getLast? = r.getLast? := by
        rw [← getLast?_popWhile p r, hr]
      rw [h1, h.boteq]
      have hPne : P ≠ [] := by
        intro hP
        have hbe := h.boteq
        rw [hP, ← getLast?_popWhile p r, hr] at hbe
        simp at hbe
      match P with
      | [] => exact absurd rfl hPne
      | x :: P' => simp
  · -- topeq
    simp
  · -- desc
    unfold DescChain
    match hr : popWhile p r with
    | [] => simp
    | b :: rest' =>
      refine List.chain'_cons.mpr ⟨?_, hr ▸ chain'_popWhile h.desc⟩
      exact hub b (hsub' b (by rw [hr]; simp))
  · -- convex
    match hr : popWhile p r with
    | [] => trivial
    | [b] => trivial
    | b :: a :: rest =>
      exact ⟨hstop b a rest hr, hr ▸ convex3_popWhile h.convex⟩
  · -- halfpl
    intro q hq
    rcases List.mem_append.mp hq with hq | hq
    · -- a previously processed point
      unfold EdgesLeft
      match hr : popWhile p r with
      | [] => simp
      | b :: rest' =>
        refine List.chain'_cons.mpr ⟨?_, hr ▸ chain'_popWhile (h.halfpl q hq)⟩
        exact htopedge q hq b (by rw [hr]; rfl)
    · -- the new point itself
      have hqp : q = p := by simpa using hq
      rw [hqp]
      unfold EdgesLeft
      match hr : popWhile p r with
      | [] => simp
      | [b] =>
        refine List.chain'_cons.mpr ⟨?_, List.chain'_singleton b⟩
        exact le_of_eq (cross_snd_eq_thd b p).symm
      | b :: a :: rest =>
        refine List.chain'_cons.mpr ⟨le_of_eq (cross_snd_eq_thd b p).symm, ?_⟩
        have hdesc' : DescChain (b :: a :: rest) := hr ▸ chain'_popWhile h.desc
        have hconv' : Convex3 (b :: a :: rest) := hr ▸ convex3_popWhile h.convex
        have hmem' : ∀ x ∈ b :: a :: rest, ptLe x p := by
          intro x hx
          exact hub x (hsub' x (by rw [hr]; exact hx))
        exact (descend_left rest b a hdesc' hconv' hmem' (hstop b a rest hr)).imp
          (fun x y hxy => le_of_lt hxy)

theorem inv_fold :
    ∀ (S P r : List Pt), Inv P r → List.Pairwise ptLe S →
      (∀ q ∈ P, ∀ s ∈ S, ptLe q s) →
      Inv (P ++ S) (S.foldl (fun acc p => p :: popWhile p acc) r) := by
  intro S
  induction S with
  | nil => intro P r h _ _; simpa using h
  | cons p S' ih =>
    intro P r h hpair hub
    have h1 : Inv (P ++ [p]) (p :: popWhile p r) :=
      inv_step h (fun q hq => hub q hq p (by simp))
    have h2 := ih (P ++ [p]) (p :: popWhile p r) h1 hpair.of_cons
      (by
        intro q hq s hs
        rcases List.mem_append.mp hq with hq | hq
        · exact hub q hq s (List.mem_cons_of_mem _ hs)
        · simp at hq; subst hq
          exact (List.pairwise_cons.mp hpair).1 s hs)
    simpa using h2

/-- After folding the whole sorted list, the invariant holds for the full
chain. -/
theorem buildChain_inv (S : List Pt) (hS : List.Pairwise ptLe S) :
    Inv S (buildChain S) := by
  have h := inv_fold S [] [] inv_nil hS (by simp)
  simpa [buildChain] using h

/-! ### Transfer to the upper chain via point negation

Negating both coordinates reverses the sort order and preserves `cross`,
so the upper chain (built over the reversed sorted list) satisfies the same
half-plane property. -/

def negP (a : Pt) : Pt := (-a.1, -a.2)

theorem negP_involutive : ∀ a : Pt, negP (negP a) = a := by
  intro a; simp [negP]

theorem negP_injective : Function.Injective negP := by
  intro a b h
  have h2 := congrArg negP h
  rwa [negP_involutive, negP_involutive] at h2

theorem cross_negP (o a b : Pt) : cross (negP o) (negP a) (negP b) = cross o a b := by
  simp only [cross, negP]; ring

theorem ptLe_negP {a b : Pt} : ptLe (negP a) (negP b) ↔ ptLe b a := by
  simp only [ptLe, negP]
  constructor
  · rintro (h | ⟨hx, hy⟩)
    · exact Or.inl (by linarith)
    · exact Or.inr ⟨by linarith, by linarith⟩
  · rintro (h | ⟨hx, hy⟩)
    · exact Or.inl (by linarith)
    · exact Or.inr ⟨by linarith, by linarith⟩

theorem popWhile_negP (p : Pt) : ∀ l : List Pt,
    popWhile (negP p) (l.map negP) = (popWhile p l).map negP := by
  intro l
  induction l with
  | nil => rfl
  | cons b t ih =>
    match t with
    | [] => rfl
    | a :: rest =>
      simp only [List.map_cons]
      rw [popWhile, popWhile, cross_negP]
      by_cases hc : cross a b p ≤ 0
      · rw [if_pos hc, if_pos hc, ← List.map_cons]
        simpa using ih
      · rw [if_neg hc, if_neg hc]
        simp

theorem foldChain_negP : ∀ (l acc : List Pt),
    (l.map negP).foldl (fun acc p => p :: popWhile p acc) (acc.map negP) =
      (l.foldl (fun acc p => p :: popWhile p acc) acc).map negP := by
  intro l
  induction l with
  | nil => intro acc; rfl
  | cons p t ih =>
    intro acc
    simp only [List.map_cons, List.foldl_cons]
    rw [popWhile_negP, ← List.map_cons]
    exact ih _

theorem buildChain_negP (l : List Pt) :
    buildChain (l.map negP) = (buildChain l).map negP := by
  have h := foldChain_negP l []
  simpa [buildChain] using h

theorem pairwise_negP_reverse {S : List Pt} (hS : List.Pairwise ptLe S) :
    List.Pairwise ptLe ((S.reverse).map negP) := by
  rw [List.pairwise_map, List.pairwise_reverse]
  exact hS.imp (fun h => ptLe_negP.mpr h)

/-- The half-plane property of the lower chain. -/
theorem lower_edges (S : List Pt) (hS : List.Pairwise ptLe S) :
    ∀ q ∈ S, EdgesLeft q (buildChain S) :=
  fun q hq => (buildChain_inv S hS).halfpl q hq

/-- The half-plane property and endpoints of the upper chain, obtained from
the lower-chain invariant of the negated reversed list. -/
theorem upper_edges (S : List Pt) (hS : List.Pairwise ptLe S) :
    (∀ q ∈ S, EdgesLeft q (buildChain S.reverse)) ∧
      (buildChain S.reverse).head? = S.head? ∧
      (buildChain S.reverse).getLast? = S.getLast? := by
  have hinv := buildChain_inv _ (pairwise_negP_reverse hS)
  rw [buildChain_negP] at hinv
  refine ⟨?_, ?_, ?_⟩
  · intro q hq
    have hq' : negP q ∈ (S.reverse).map negP :=
      List.mem_map_of_mem _ (by simpa using hq)
    have h := hinv.halfpl (negP q) hq'
    unfold EdgesLeft at h ⊢
    rw [List.chain'_map] at h
    exact h.imp (fun x y hxy => by rwa [cross_negP] at hxy)
  · have h := hinv.topeq
    rw [List.head?_map, List.getLast?_map] at h
    have h2 := Option.map_injective negP_injective h
    rw [h2, List.getLast?_reverse]
  · have h := hinv.boteq
    rw [List.getLast?_map, List.head?_map] at h
    have h2 := Option.map_injective negP_injective h
    rw [h2, List.head?_reverse]

theorem chain_foldl_len : ∀ (S acc : List Pt), S ≠ [] → acc ≠ [] →
    2 ≤ (S.foldl (fun acc p => p :: popWhile p acc) acc).length := by
  intro S
  induction S with
  | nil => intro acc h _; exact absurd rfl h
  | cons p S' ih =>
    intro acc _ hacc
    cases S' with
    | nil =>
      simp only [List.foldl_cons, List.foldl_nil]
      have h1 := popWhile_ne_nil (p := p) hacc
      match hpw : popWhile p acc with
      | [] => exact absurd hpw h1
      | x :: t => simp
    | cons s S'' =>
      simp only [List.foldl_cons]
      exact ih (p :: popWhile p acc) (by simp) (by simp)

theorem buildChain_len {S : List Pt} (h2 : 2 ≤ S.length) :
    2 ≤ (buildChain S).length := by
  match S, h2 with
  | x :: y :: S', _ =>
    show 2 ≤ ((y :: S').foldl (fun acc p => p :: popWhile p acc)
      ((fun acc p => p :: popWhile p acc) [] x)).length
    exact chain_foldl_len (y :: S') [x] (by simp) (by simp)

theorem insideOrOn_of_chain {poly : List Pt} {q : Pt}
    (h : ∀ v rest, poly = v :: rest →
      List.Chain' (fun a b => 0 ≤ cross a b q) (poly ++ [v])) :
    insideOrOn poly q := by
  match poly with
  | [] => trivial
  | v :: rest => exact h v rest rfl

/-- **C1.** For every set of at least 3 non-collinear 2-D points, every input
point lies inside or on the boundary of the polygon returned by
`computeConvexHull`: it is on the left of or on every directed edge of the
counter-clockwise output polygon, closing edge included. -/
theorem computeConvexHull_contains_all (points : List Pt)
    (h3 : 3 ≤ points.length)
    (hnc : ∃ a ∈ points, ∃ b ∈ points, ∃ c ∈ points, cross a b c ≠ 0) :
    ∀ q ∈ points, insideOrOn (computeConvexHull points) q := by
  intro q hq
  have hnlt : ¬ points.length < 3 := by omega
  unfold computeConvexHull
  rw [if_neg hnlt]
  have hperm : (sortLex points).Perm points := List.perm_insertionSort ptLe points
  have hS : List.Pairwise ptLe (sortLex points) :=
    List.sorted_insertionSort ptLe points
  set S := sortLex points with hSdef
  have hqS : q ∈ S := hperm.mem_iff.mpr hq
  have hlenS : 3 ≤ S.length := by rw [hperm.length_eq]; exact h3
  obtain ⟨hupE, hupHead, hupLast⟩ := upper_edges S hS
  have hloE : EdgesLeft q (buildChain S) := lower_edges S hS q hqS
  have hloInv := buildChain_inv S hS
  have hL2 : 2 ≤ (buildChain S).length := buildChain_len (by omega)
  have hU2 : 2 ≤ (buildChain S.reverse).length := by
    refine buildChain_len ?_
    rw [List.length_reverse]
    omega
  obtain ⟨tL, l1, lrest, hL⟩ : ∃ tL l1 lrest, buildChain S = tL :: l1 :: lrest := by
    match hBC : buildChain S with
    | [] => rw [hBC] at hL2; simp at hL2
    | [x] => rw [hBC] at hL2; simp at hL2
    | x :: y :: t => exact ⟨x, y, t, rfl⟩
  obtain ⟨tU, u1, urest, hU⟩ :
      ∃ tU u1 urest, buildChain S.reverse = tU :: u1 :: urest := by
    match hBC : buildChain S.reverse with
    | [] => rw [hBC] at hU2; simp at hU2
    | [x] => rw [hBC] at hU2; simp at hU2
    | x :: y :: t => exact ⟨x, y, t, rfl⟩
  show insideOrOn
    ((buildChain S).tail.reverse ++ (buildChain S.reverse).tail.reverse) q
  rw [hL, hU]
  simp only [List.tail_cons]
  -- endpoint identifications
  have htL : some tL = S.getLast? := by
    have h := hloInv.topeq
    rw [hL] at h
    exact h
  have htU : some tU = S.head? := by
    rw [← hupHead, hU]; rfl
  have hbotL : (l1 :: lrest).getLast? = S.head? := by
    have h := hloInv.boteq
    rw [hL, List.getLast?_cons_cons] at h
    exact h
  have hbotU : (u1 :: urest).getLast? = S.getLast? := by
    rw [← hupLast, hU, List.getLast?_cons_cons]
  -- the two chains read bottom-to-top
  have hlowFull :
      List.Chain' (fun a b => 0 ≤ cross a b q) ((l1 :: lrest).reverse ++ [tL]) := by
    have h : List.Chain' (fun a b => 0 ≤ cross a b q) ((buildChain S).reverse) := by
      rw [List.chain'_reverse]
      exact hloE
    rw [hL] at h
    simpa using h
  have hupFull :
      List.Chain' (fun a b => 0 ≤ cross a b q) ((u1 :: urest).reverse ++ [tU]) := by
    have h : List.Chain' (fun a b => 0 ≤ cross a b q)
        ((buildChain S.reverse).reverse) := by
      rw [List.chain'_reverse]
      exact hupE q hqS
    rw [hU] at h
    simpa using h
  obtain ⟨hA, _, hjunc⟩ := List.chain'_append.mp hlowFull
  apply insideOrOn_of_chain
  intro v rest hvr
  have hv : some v = S.head? := by
    have h1 : ((l1 :: lrest).reverse ++ (u1 :: urest).reverse).head? = some v := by
      rw [hvr]; rfl
    rw [List.head?_append_of_ne_nil _ (by simp), List.head?_reverse, hbotL] at h1
    exact h1.symm
  have hvU : v = tU := by
    have h := hv.trans htU.symm
    simpa using h
  rw [hvU, List.append_assoc]
  refine List.chain'_append.mpr ⟨hA, hupFull, ?_⟩
  intro x hx y hy
  have hx' : l1 = x := by
    rw [List.getLast?_reverse] at hx
    simpa using hx
  have hy' : tL = y := by
    rw [List.head?_append_of_ne_nil _ (by simp), List.head?_reverse, hbotU,
      ← htL] at hy
    simpa using hy
  rw [← hx', ← hy']
  apply hjunc
  · rw [List.getLast?_reverse]; rfl
  · rfl

/-- Witness for C1 at a concrete input: five points, three of them
non-collinear; all of them lie inside or on the hull. -/
theorem computeConvexHull_contains_all_witness :
    3 ≤ ([((0:ℚ), (0:ℚ)), (2, 0), (1, 1), (0, 2), (1, 0)] : List Pt).length ∧
      (∃ a ∈ ([((0:ℚ), (0:ℚ)), (2, 0), (1, 1), (0, 2), (1, 0)] : List Pt),
        ∃ b ∈ ([((0:ℚ), (0:ℚ)), (2, 0), (1, 1), (0, 2), (1, 0)] : List Pt),
          ∃ c ∈ ([((0:ℚ), (0:ℚ)), (2, 0), (1, 1), (0, 2), (1, 0)] : List Pt),
            cross a b c ≠ 0) ∧
      ∀ q ∈ ([((0:ℚ), (0:ℚ)), (2, 0), (1, 1), (0, 2), (1, 0)] : List Pt),
        insideOrOn
          (computeConvexHull [((0:ℚ), (0:ℚ)), (2, 0), (1, 1), (0, 2), (1, 0)]) q :=
  ⟨by decide,
    ⟨(0, 0), by simp, (2, 0), by simp, (1, 1), by simp, by norm_num [cross]⟩,
    computeConvexHull_contains_all _ (by decide)
      ⟨(0, 0), by simp, (2, 0), by simp, (1, 1), by simp, by norm_num [cross]⟩⟩

/-- **C2.** For every input list of fewer than 3 points, `computeConvexHull`
returns the input list unchanged (same points, same order). -/
theorem computeConvexHull_short_input (points : List Pt)
    (h : points.length < 3) : computeConvexHull points = points := by
  unfold computeConvexHull
  rw [if_pos h]

/-- Witness for C2 at a concrete two-point input. -/
theorem computeConvexHull_short_input_witness :
    ([((0:ℚ), (0:ℚ)), (1, 1)] : List Pt).length < 3 ∧
      computeConvexHull [((0:ℚ), (0:ℚ)), (1, 1)] = [((0:ℚ), (0:ℚ)), (1, 1)] :=
  ⟨by decide, computeConvexHull_short_input _ (by decide)⟩

/-! ### DBSCAN rendering: cluster grouping (`renderDBSCAN`, dbscan.tsx)

The render loop builds `clusters = new Map()` and, for each labeled point
with `pt.cluster !== -1`, appends the point to the entry of its cluster id
(creating the entry on first use).  The `Map` is modelled as an association
list in key-insertion order. -/

/-- A labeled point `{x, y, cluster}` as produced by `fetchLabeledPoints`. -/
structure LPt where
  x : ℚ
  y : ℚ
  cluster : ℤ
deriving DecidableEq, Repr

/-- `clusters.get(pt.cluster)!.push(pt)` with `clusters.set(key, [])` on first
use: append `p` to the entry of key `c`, creating it at the end on miss. -/
def addToCluster : List (ℤ × List LPt) → ℤ → LPt → List (ℤ × List LPt)
  | [], c, p => [(c, [p])]
  | (k, l) :: rest, c, p =>
    if k = c then (k, l ++ [p]) :: rest else (k, l) :: addToCluster rest c p

/-- The cluster map built by `renderDBSCAN`: noise points (`cluster = -1`)
are skipped, all others are appended to their cluster's entry. -/
def clustersOf (pts : List LPt) : List (ℤ × List LPt) :=
  pts.foldl (fun m p => if p.cluster = -1 then m else addToCluster m p.cluster p) []

theorem addToCluster_entries {m : List (ℤ × List LPt)} {c : ℤ} {p : LPt}
    (hm : ∀ e ∈ m, ∀ q ∈ e.2, q.cluster = e.1) (hp : p.cluster = c) :
    ∀ e ∈ addToCluster m c p, ∀ q ∈ e.2, q.cluster = e.1 := by
  induction m with
  | nil =>
    intro e he q hq
    simp [addToCluster] at he
    subst he
    simp at hq
    rcases hq with hq
    · simp [hq, hp]
  | cons kl rest ih =>
    intro e he q hq
    obtain ⟨k, l⟩ := kl
    rw [addToCluster] at he
    split at he
    · rename_i hk
      rcases List.mem_cons.mp he with he | he
      · subst he
        simp at hq
        rcases hq with hq | hq
        · exact hm (k, l) (by simp) q hq
        · subst hq; rw [hp, hk]
      · exact hm e (List.mem_cons_of_mem _ he) q hq
    · rcases List.mem_cons.mp he with he | he
      · subst he
        exact hm (k, l) (by simp) q hq
      · exact ih (fun e' he' => hm e' (List.mem_cons_of_mem _ he')) e he q hq

theorem addToCluster_keys {m : List (ℤ × List LPt)} {c : ℤ} {p : LPt}
    (hm : ∀ e ∈ m, e.1 ≠ -1) (hc : c ≠ -1) :
    ∀ e ∈ addToCluster m c p, e.1 ≠ -1 := by
  induction m with
  | nil =>
    intro e he
    simp [addToCluster] at he
    subst he
    exact hc
  | cons kl rest ih =>
    intro e he
    obtain ⟨k, l⟩ := kl
    rw [addToCluster] at he
    split at he
    · rcases List.mem_cons.mp he with he | he
      · subst he; exact hm (k, l) (by simp)
      · exact hm e (List.mem_cons_of_mem _ he)
    · rcases List.mem_cons.mp he with he | he
      · subst he; exact hm (k, l) (by simp)
      · exact ih (fun e' he' => hm e' (List.mem_cons_of_mem _ he')) e he

theorem clustersOf_invariant (pts : List LPt) :
    ∀ e ∈ clustersOf pts, e.1 ≠ -1 ∧ ∀ q ∈ e.2, q.cluster = e.1 := by
  unfold clustersOf
  suffices h : ∀ (m : List (ℤ × List LPt)),
      (∀ e ∈ m, e.1 ≠ -1 ∧ ∀ q ∈ e.2, q.cluster = e.1) →
      ∀ e ∈ pts.foldl
        (fun m p => if p.cluster = -1 then m else addToCluster m p.cluster p) m,
        e.1 ≠ -1 ∧ ∀ q ∈ e.2, q.cluster = e.1 by
    exact h [] (by simp)
  induction pts with
  | nil => intro m hm; simpa using hm
  | cons p rest ih =>
    intro m hm
    simp only [List.foldl_cons]
    by_cases hp : p.cluster = -1
    · rw [if_pos hp]
      exact ih m hm
    · rw [if_neg hp]
      refine ih _ ?_
      intro e he
      exact ⟨addToCluster_keys (fun e' he' => (hm e' he').1) hp e he,
        addToCluster_entries (fun e' he' => (hm e' he').2) rfl e he⟩

/-- **C3.** In the DBSCAN rendering, every point stored in any cluster's
point set has that cluster's (non-noise) id as its label; consequently a
labeled point whose `cluster` is `-1` belongs to no cluster's point set and
is excluded from every convex-hull overlay. -/
theorem noise_excluded_from_clusters (pts : List LPt) (p : LPt)
    (hp : p.cluster = -1) :
    ∀ e ∈ clustersOf pts, p ∉ e.2 := by
  intro e he hmem
  obtain ⟨hkey, hlab⟩ := clustersOf_invariant pts e he
  exact hkey (hp ▸ (hlab p hmem).symm)

/-- Witness for C3: a concrete labeled-point list with one noise point. -/
theorem noise_excluded_from_clusters_witness :
    (LPt.mk 0 0 (-1)).cluster = -1 ∧
      ∀ e ∈ clustersOf [⟨0, 0, -1⟩, ⟨1, 0, 2⟩, ⟨2, 1, 2⟩],
        (LPt.mk 0 0 (-1)) ∉ e.2 :=
  ⟨rfl, noise_excluded_from_clusters _ _ rfl⟩

/-! ### DBSCAN response handling (`fetchLabeledPoints`, dbscan.tsx)

The fetch result is applied to the `labeledPoints` state only when the
response is ok, has a `labels` array, and that array's length matches the
number of points sent; otherwise the handler returns early and the state is
left unchanged. -/

/-- A plain 2-D point `{x, y}` sent to the `/dbscan` endpoint. -/
structure Pt2 where
  x : ℚ
  y : ℚ
deriving DecidableEq, Repr

/-- State update of `fetchLabeledPoints`: `ok` is `res.ok`, `labels` is the
`labels` field of the parsed body (`none` when absent), `points` the
`allPoints` sent, `prev` the previous `labeledPoints` state.  Returns the new
state. -/
def applyDbscanResponse (ok : Bool) (labels : Option (List ℤ))
    (points : List Pt2) (prev : List LPt) : List LPt :=
  if ok = false then prev
  else
    match labels with
    | none => prev
    | some ls =>
      if ls.length = points.length then
        (points.zip ls).map (fun pc => ⟨pc.1.x, pc.1.y, pc.2⟩)
      else prev

/-- **C5.** If the `/dbscan` response is not ok, has no labels array, or its
labels length differs from the number of points sent, the labeled-points
state is unchanged; otherwise it becomes exactly the sent points paired
index-wise with the returned labels. -/
theorem applyDbscanResponse_spec (ok : Bool) (labels : Option (List ℤ))
    (points : List Pt2) (prev : List LPt) :
    ((ok = false ∨ labels = none ∨
        (∀ ls, labels = some ls → ls.length ≠ points.length)) →
      applyDbscanResponse ok labels points prev = prev) ∧
    (∀ ls, labels = some ls → ls.length = points.length → ok = true →
      applyDbscanResponse ok labels points prev =
        (points.zip ls).map (fun pc => ⟨pc.1.x, pc.1.y, pc.2⟩)) := by
  constructor
  · intro h
    unfold applyDbscanResponse
    match ok, labels with
    | false, _ => simp
    | true, none => simp
    | true, some ls =>
      simp only [Bool.true_eq_false, if_false]
      rcases h with h | h | h
      · exact absurd h (by simp)
      · exact absurd h (by simp)
      · rw [if_neg (h ls rfl)]
  · intro ls hls hlen hok
    subst hls
    subst hok
    unfold applyDbscanResponse
    simp only [Bool.true_eq_false, if_false]
    rw [if_pos hlen]

/-- Witness for C5: a successful response with two labels applied to two
points. -/
theorem applyDbscanResponse_spec_witness :
    (some [0, 1] : Option (List ℤ)) = some [0, 1] ∧
      ([0, 1] : List ℤ).length = ([⟨0, 0⟩, ⟨1, 1⟩] : List Pt2).length ∧
      applyDbscanResponse true (some [0, 1]) [⟨0, 0⟩, ⟨1, 1⟩] [] =
        (([⟨0, 0⟩, ⟨1, 1⟩] : List Pt2).zip [0, 1]).map
          (fun pc => ⟨pc.1.x, pc.1.y, pc.2⟩) :=
  ⟨rfl, rfl,
    (applyDbscanResponse_spec true (some [0, 1]) [⟨0, 0⟩, ⟨1, 1⟩] []).2
      [0, 1] rfl rfl rfl⟩

/-! ### Decision-tree build request (`decision-tree.tsx`)

The source calls
`fetch("${process.env.NEXT_PUBLIC_API_URL}/build_tree", …)` with ordinary
double quotes, not backticks: the argument is the literal string
`${process.env.NEXT_PUBLIC_API_URL}/build_tree`, not a template literal, so
the interpolation never happens.  (Other pages, e.g. dbscan.tsx, use
backticks.) -/

/-- The URL the decision-tree page actually requests: the verbatim text of
the quoted string, `$` and braces included. -/
def buildTreeRequestUrl : String :=
  "$\x7bprocess.env.NEXT_PUBLIC_API_URL\x7d/build_tree"

/-- Modelled from the spec: the URL the spec describes — `API_URL` with
`"/build_tree"` appended. -/
def specBuildTreeUrl (apiUrl : String) : String := apiUrl ++ "/build_tree"

/-- **C6.** The decision-tree page does not request `API_URL ++
"/build_tree"`: because the fetch argument is quoted with `"` instead of
backticks, the requested URL is the literal `${…}` text, shown here at the
concrete configuration `API_URL = "http://localhost:8000"`. -/
theorem buildTree_url_not_interpolated :
    buildTreeRequestUrl = "$\x7bprocess.env.NEXT_PUBLIC_API_URL\x7d/build_tree" ∧
      buildTreeRequestUrl ≠ specBuildTreeUrl "http://localhost:8000" :=
  ⟨rfl, by decide⟩

/-! ### SOM neighbourhood influence (`plotlygraph.tsx`)

`const influence = Math.exp(-(gridDist ** 2) / (2 * sigmaDecay ** 2))`,
modelled over `ℝ` with the genuine exponential. -/

/-- The Gaussian neighbourhood influence of a grid node at lattice distance
`gridDist` from the BMU, for neighbourhood radius `sigma`. -/
noncomputable def somInfluence (sigma gridDist : ℝ) : ℝ :=
  Real.exp (-(gridDist ^ 2) / (2 * sigma ^ 2))

/-- **C9.** For every fixed (nonzero) sigma, the influence strictly
decreases in the grid-lattice distance from the BMU: `d1 < d2` implies
`influence d2 < influence d1`.  (The UI slider keeps `sigma ≥ 0.5`, and the
decayed radius `sigma * exp(-iter/iterations)` stays positive.) -/
theorem somInfluence_strictly_decreasing (sigma d1 d2 : ℝ)
    (hd1 : 0 ≤ d1) (h12 : d1 < d2) (hs : sigma ≠ 0) :
    somInfluence sigma d2 < somInfluence sigma d1 := by
  unfold somInfluence
  apply Real.exp_lt_exp.mpr
  have hs2 : 0 < 2 * sigma ^ 2 := by positivity
  have hd : d1 ^ 2 < d2 ^ 2 := by nlinarith
  rw [div_lt_div_iff₀ hs2 hs2]
  nlinarith

/-- Witness for C9 at `sigma = 1`, `d1 = 0`, `d2 = 1`. -/
theorem somInfluence_strictly_decreasing_witness :
    (0 : ℝ) ≤ 0 ∧ (0 : ℝ) < 1 ∧ (1 : ℝ) ≠ 0 ∧
      somInfluence 1 1 < somInfluence 1 0 :=
  ⟨le_refl 0, by norm_num, by norm_num,
    somInfluence_strictly_decreasing 1 0 1 (le_refl 0) (by norm_num) (by norm_num)⟩

/-! ### Perceptron / MLP activation tables (unnamed parts 002 and 003)

Both files define a scalar "softmax" entry next to the sigmoid entry:
part 002 computes `Math.exp(x) / (1 + Math.exp(x))`, part 003 computes
`expX / (expX + 1)` with `expX = Math.exp(x)`. -/

/-- `sigmoid.func : (x) => 1 / (1 + Math.exp(-x))`. -/
noncomputable def sigmoidFunc (x : ℝ) : ℝ := 1 / (1 + Real.exp (-x))

/-- Part 002's `softmax.func : (x) => Math.exp(x) / (1 + Math.exp(x))`. -/
noncomputable def softmaxScalarA (x : ℝ) : ℝ := Real.exp x / (1 + Real.exp x)

/-- Part 003's `softmax.func`: `expX / (expX + 1)` with `expX = Math.exp(x)`. -/
noncomputable def softmaxScalarB (x : ℝ) : ℝ := Real.exp x / (Real.exp x + 1)

/-- **C10.** The scalar "softmax" activation of both perceptron/MLP
visualizers is pointwise equal to the sigmoid activation:
`exp x / (1 + exp x) = 1 / (1 + exp (-x))` for every real `x`, so selecting
Softmax computes the same forward activation as selecting Sigmoid. -/
theorem softmax_scalar_eq_sigmoid :
    ∀ x : ℝ, softmaxScalarA x = sigmoidFunc x ∧ softmaxScalarB x = sigmoidFunc x := by
  intro x
  have hpos : 0 < Real.exp x := Real.exp_pos x
  have hne : Real.exp x ≠ 0 := ne_of_gt hpos
  have hden : 1 + Real.exp (-x) ≠ 0 := by
    have := Real.exp_pos (-x)
    linarith
  constructor
  · unfold softmaxScalarA sigmoidFunc
    rw [Real.exp_neg]
    field_simp
    ring
  · unfold softmaxScalarB sigmoidFunc
    rw [Real.exp_neg]
    field_simp

/-! ### DBSCAN dataset generation (dbscan.tsx)

`TOTAL_POINTS = 200`, `NOISE_RATIO = 0.1`; the page generates
`Math.floor(200 * 0.9 / numClusters)` points per cluster for each of the
`numClusters` clusters, plus `Math.floor(200 * 0.1)` uniform noise points.
The random stream is modelled by `rand : ℕ → ℝ` (one index per
`Math.random()` call); all involved floor computations are exact in IEEE
doubles, so modelling the literals over `ℝ` is faithful. -/

def TOTAL_POINTS : ℕ := 200

/-- `NOISE_RATIO = 0.1`. -/
noncomputable def noiseFrac : ℝ := 0.1

/-- `Math.floor(TOTAL_POINTS * (1 - NOISE_RATIO))`, the clustered-point
budget passed to `generateClusterData`. -/
noncomputable def clusterPointCount : ℕ :=
  (⌊(TOTAL_POINTS : ℝ) * (1 - noiseFrac)⌋).toNat

/-- `Math.floor(TOTAL_POINTS * NOISE_RATIO)`, the number of noise points. -/
noncomputable def dbscanNoiseCount : ℕ :=
  (⌊(TOTAL_POINTS : ℝ) * noiseFrac⌋).toNat

/-- `generateClusterData` from dbscan.tsx: `numClusters` random centers,
then `Math.floor(clusterPointCount / numClusters)` points per cluster, each
at a random angle and distance from its center, clamped to `[-1, 1]`. -/
noncomputable def generateClusterData (rand : ℕ → ℝ)
    (numClusters clusterPtCount : ℕ) : List (ℝ × ℝ) :=
  let clusterCenters := (List.range numClusters).map (fun i =>
    (rand (2 * i) * 1.6 - 0.8, rand (2 * i + 1) * 1.6 - 0.8))
  let pointsPerCluster := clusterPtCount / numClusters
  (List.range numClusters).flatMap (fun i =>
    (List.range pointsPerCluster).map (fun j =>
      let center := clusterCenters.getD i (0, 0)
      let angle := rand (2 * numClusters + 2 * (i * pointsPerCluster + j)) *
        (2 * Real.pi)
      let distance :=
        rand (2 * numClusters + 2 * (i * pointsPerCluster + j) + 1) * 0.3
      (max (-1) (min 1 (center.1 + Real.cos angle * distance)),
        max (-1) (min 1 (center.2 + Real.sin angle * distance)))))

/-- The noise points of `fetchLabeledPoints`:
`Array.from({length: noiseCount}, () => ({x: rand*2-1, y: rand*2-1}))`. -/
noncomputable def dbscanNoisePoints (rand : ℕ → ℝ) : List (ℝ × ℝ) :=
  (List.range dbscanNoiseCount).map (fun i =>
    (rand (2 * i) * 2 - 1, rand (2 * i + 1) * 2 - 1))

/-- `allPoints = [...clusterPoints, ...noisePoints]`. -/
noncomputable def dbscanDataset (randC randN : ℕ → ℝ) (numClusters : ℕ) :
    List (ℝ × ℝ) :=
  generateClusterData randC numClusters clusterPointCount ++
    dbscanNoisePoints randN

theorem clusterPointCount_eq : clusterPointCount = 180 := by
  unfold clusterPointCount TOTAL_POINTS noiseFrac
  norm_num
  rfl

theorem dbscanNoiseCount_eq : dbscanNoiseCount = 20 := by
  unfold dbscanNoiseCount TOTAL_POINTS noiseFrac
  norm_num
  rfl

theorem generateClusterData_length (rand : ℕ → ℝ) (numClusters cnt : ℕ) :
    (generateClusterData rand numClusters cnt).length =
      numClusters * (cnt / numClusters) := by
  unfold generateClusterData
  rw [List.length_flatMap]
  simp only [Function.comp_def, List.length_map, List.length_range]
  rw [List.map_const', List.length_range, List.sum_replicate, smul_eq_mul]

/-- **C7.** For every slider value `numClusters ∈ {1, …, 5}`, the generated
DBSCAN dataset has exactly `⌊200·0.9/numClusters⌋·numClusters = 180`
clustered points and exactly `⌊200·0.1⌋ = 20` noise points — 200 points in
total, of which exactly 10% are noise. -/
theorem dbscanDataset_sizes (randC randN : ℕ → ℝ) (numClusters : ℕ)
    (h1 : 1 ≤ numClusters) (h5 : numClusters ≤ 5) :
    (generateClusterData randC numClusters clusterPointCount).length = 180 ∧
      (dbscanNoisePoints randN).length = 20 ∧
      (dbscanDataset randC randN numClusters).length = 200 := by
  have hgen : (generateClusterData randC numClusters clusterPointCount).length
      = 180 := by
    rw [generateClusterData_length, clusterPointCount_eq]
    interval_cases numClusters <;> norm_num
  have hnoise : (dbscanNoisePoints randN).length = 20 := by
    unfold dbscanNoisePoints
    rw [List.length_map, List.length_range, dbscanNoiseCount_eq]
  refine ⟨hgen, hnoise, ?_⟩
  unfold dbscanDataset
  rw [List.length_append, hgen, hnoise]

/-- Witness for C7 at `numClusters = 3` with the constant random stream
`1/2`. -/
theorem dbscanDataset_sizes_witness :
    1 ≤ 3 ∧ 3 ≤ 5 ∧
      ((generateClusterData (fun _ => (1:ℝ)/2) 3 clusterPointCount).length = 180 ∧
        (dbscanNoisePoints (fun _ => (1:ℝ)/2)).length = 20 ∧
        (dbscanDataset (fun _ => (1:ℝ)/2) (fun _ => (1:ℝ)/2) 3).length = 200) :=
  ⟨by norm_num, by norm_num,
    dbscanDataset_sizes _ _ 3 (by norm_num) (by norm_num)⟩

/-! ### K-Means centroid update (`KMeansVisualizer.step`, plotlygraph.tsx)

Each step assigns every point to its nearest centroid (squared Euclidean
distance, strict `<`, ties kept by the first-seen centroid), accumulates
per-cluster sums, and maps each sum to the mean — or to a fresh random
position for an empty cluster.  The random draws of the reinitialization are
modelled by `rand : ℕ → ℚ × ℚ`, indexed by cluster position. -/

/-- `euclideanDistance` from the source (it returns the *squared* distance). -/
def euclideanDistance (a b : ℚ × ℚ) : ℚ :=
  (a.1 - b.1) ^ 2 + (a.2 - b.2) ^ 2

/-- The `centers.forEach` argmin loop: `minDist = Infinity; cluster = 0`,
updated on strict `dist < minDist`.  `none` models `Infinity`. -/
def nearestCluster (centers : List (ℚ × ℚ)) (p : ℚ × ℚ) : ℕ :=
  ((centers.enum.foldl (fun best ic =>
      match best with
      | none => some (euclideanDistance p ic.2, ic.1)
      | some md =>
        if euclideanDistance p ic.2 < md.1 then some (euclideanDistance p ic.2, ic.1)
        else some md)
    none).map (fun md => md.2)).getD 0

/-- `points.map(p => ({...p, cluster}))` — pair every point with its
assigned cluster index. -/
def assignClusters (points centers : List (ℚ × ℚ)) : List ((ℚ × ℚ) × ℕ) :=
  points.map (fun p => (p, nearestCluster centers p))

/-- The `sums` accumulation: an array of `{x: 0, y: 0, count: 0}` of length
`k`, mutated by `sums[p.cluster].x += p.x; … ; count++`. -/
def clusterSums (k : ℕ) (assigned : List ((ℚ × ℚ) × ℕ)) : List (ℚ × ℚ × ℕ) :=
  assigned.foldl (fun s pc =>
      let old := s.getD pc.2 (0, 0, 0)
      s.set pc.2 (old.1 + pc.1.1, old.2.1 + pc.1.2, old.2.2 + 1))
    (List.replicate k (0, 0, 0))

/-- `centers = sums.map(s => s.count ? mean : random reinit)`. -/
def updateCentroids (rand : ℕ → ℚ × ℚ) (sums : List (ℚ × ℚ × ℕ)) :
    List (ℚ × ℚ) :=
  sums.enum.map (fun is =>
    if is.2.2.2 ≠ 0 then (is.2.1 / is.2.2.2, is.2.2.1 / is.2.2.2)
    else ((rand is.1).1 * 780 + 10, (rand is.1).2 * 580 + 10))

/-- One iteration of the K-Means `step` (assignment + centroid update). -/
def kmeansStep (rand : ℕ → ℚ × ℚ) (points centers : List (ℚ × ℚ)) :
    List (ℚ × ℚ) :=
  updateCentroids rand (clusterSums centers.length (assignClusters points centers))

theorem getD_set_self {α : Type} (l : List α) (i : ℕ) (v d : α)
    (h : i < l.length) : (l.set i v).getD i d = v := by
  rw [List.getD_eq_getElem?_getD, List.getElem?_set_self (by simpa using h)]
  rfl

theorem getD_set_ne {α : Type} (l : List α) {i j : ℕ} (v d : α)
    (hne : j ≠ i) : (l.set j v).getD i d = l.getD i d := by
  rw [List.getD_eq_getElem?_getD, List.getElem?_set_ne hne,
    ← List.getD_eq_getElem?_getD]

theorem clusterSums_foldl_getD :
    ∀ (l : List ((ℚ × ℚ) × ℕ)) (s : List (ℚ × ℚ × ℕ)) (i : ℕ), i < s.length →
      ((l.foldl (fun s pc =>
          let old := s.getD pc.2 (0, 0, 0)
          s.set pc.2 (old.1 + pc.1.1, old.2.1 + pc.1.2, old.2.2 + 1)) s).getD
        i (0, 0, 0)) =
        ((s.getD i (0, 0, 0)).1 +
            ((l.filter (fun pc => pc.2 == i)).map (fun pc => pc.1.1)).sum,
          (s.getD i (0, 0, 0)).2.1 +
            ((l.filter (fun pc => pc.2 == i)).map (fun pc => pc.1.2)).sum,
          (s.getD i (0, 0, 0)).2.2 + (l.filter (fun pc => pc.2 == i)).length) := by
  intro l
  induction l with
  | nil => intro s i hi; simp
  | cons pc l' ih =>
    intro s i hi
    simp only [List.foldl_cons]
    rw [ih _ i (by simpa using hi)]
    by_cases hpc : pc.2 = i
    · subst hpc
      rw [getD_set_self _ _ _ _ hi]
      have hf : (pc :: l').filter (fun x => x.2 == pc.2) =
          pc :: l'.filter (fun x => x.2 == pc.2) := by
        rw [List.filter_cons_of_pos (by simp)]
      rw [hf]
      simp only [List.map_cons, List.sum_cons, List.length_cons]
      refine Prod.ext ?_ (Prod.ext ?_ ?_)
      · simp; ring
      · simp; ring
      · simp; omega
    · rw [getD_set_ne _ _ _ hpc]
      have hf : (pc :: l').filter (fun x => x.2 == i) =
          l'.filter (fun x => x.2 == i) := by
        rw [List.filter_cons_of_neg (by simpa using hpc)]
      rw [hf]

theorem clusterSums_getD (assigned : List ((ℚ × ℚ) × ℕ)) (k i : ℕ)
    (hi : i < k) :
    (clusterSums k assigned).getD i (0, 0, 0) =
      (((assigned.filter (fun pc => pc.2 == i)).map (fun pc => pc.1.1)).sum,
        ((assigned.filter (fun pc => pc.2 == i)).map (fun pc => pc.1.2)).sum,
        (assigned.filter (fun pc => pc.2 == i)).length) := by
  unfold clusterSums
  rw [clusterSums_foldl_getD _ _ i (by simpa using hi)]
  rw [List.getD_eq_getElem?_getD, List.getElem?_replicate]
  simp [hi]

theorem clusterSums_length (k : ℕ) (assigned : List ((ℚ × ℚ) × ℕ)) :
    (clusterSums k assigned).length = k := by
  unfold clusterSums
  suffices h : ∀ (l : List ((ℚ × ℚ) × ℕ)) (s : List (ℚ × ℚ × ℕ)),
      (l.foldl (fun s pc =>
        let old := s.getD pc.2 (0, 0, 0)
        s.set pc.2 (old.1 + pc.1.1, old.2.1 + pc.1.2, old.2.2 + 1)) s).length =
        s.length by
    rw [h]; simp
  intro l
  induction l with
  | nil => intro s; rfl
  | cons pc l' ih => intro s; rw [List.foldl_cons, ih]; simp

theorem updateCentroids_getD (rand : ℕ → ℚ × ℚ) (sums : List (ℚ × ℚ × ℕ))
    (i : ℕ) (hi : i < sums.length) :
    (updateCentroids rand sums).getD i (0, 0) =
      if (sums.getD i (0, 0, 0)).2.2 ≠ 0 then
        ((sums.getD i (0, 0, 0)).1 / ((sums.getD i (0, 0, 0)).2.2 : ℚ),
          (sums.getD i (0, 0, 0)).2.1 / ((sums.getD i (0, 0, 0)).2.2 : ℚ))
      else ((rand i).1 * 780 + 10, (rand i).2 * 580 + 10) := by
  have hlen : i < (updateCentroids rand sums).length := by
    unfold updateCentroids
    simpa using hi
  rw [List.getD_eq_getElem _ _ hlen]
  unfold updateCentroids
  rw [List.getElem_map, List.getElem_enum, List.getD_eq_getElem _ _ hi]

/-- The points assigned to cluster `i` during one K-Means step. -/
def clusterMembers (points centers : List (ℚ × ℚ)) (i : ℕ) : List (ℚ × ℚ) :=
  ((assignClusters points centers).filter (fun pc => pc.2 == i)).map
    (fun pc => pc.1)

/-- **C8.** In the K-Means step, a cluster with at least one assigned point
gets as its new centroid the arithmetic mean of exactly those points'
coordinates; a cluster with no assigned points is reinitialized to
`(rand*780+10, rand*580+10)`, which lies inside the sampling bounds
`[10, 790) × [10, 590)` — never a 0/0 (`NaN`) mean. -/
theorem kmeansStep_centroid_update (rand : ℕ → ℚ × ℚ)
    (points centers : List (ℚ × ℚ)) (i : ℕ) (hi : i < centers.length)
    (hr0 : 0 ≤ (rand i).1) (hr1 : (rand i).1 < 1)
    (hr2 : 0 ≤ (rand i).2) (hr3 : (rand i).2 < 1) :
    (clusterMembers points centers i ≠ [] →
      (kmeansStep rand points centers).getD i (0, 0) =
        (((clusterMembers points centers i).map (fun p => p.1)).sum /
            ((clusterMembers points centers i).length : ℚ),
          ((clusterMembers points centers i).map (fun p => p.2)).sum /
            ((clusterMembers points centers i).length : ℚ))) ∧
    (clusterMembers points centers i = [] →
      (kmeansStep rand points centers).getD i (0, 0) =
        ((rand i).1 * 780 + 10, (rand i).2 * 580 + 10) ∧
        10 ≤ (rand i).1 * 780 + 10 ∧ (rand i).1 * 780 + 10 < 790 ∧
        10 ≤ (rand i).2 * 580 + 10 ∧ (rand i).2 * 580 + 10 < 590) := by
  have hslen : i < (clusterSums centers.length
      (assignClusters points centers)).length := by
    rw [clusterSums_length]; exact hi
  have hstep : (kmeansStep rand points centers).getD i (0, 0) =
      if ((clusterSums centers.length (assignClusters points centers)).getD i
          (0, 0, 0)).2.2 ≠ 0 then
        (((clusterSums centers.length (assignClusters points centers)).getD i
            (0, 0, 0)).1 /
          (((clusterSums centers.length (assignClusters points centers)).getD i
            (0, 0, 0)).2.2 : ℚ),
         ((clusterSums centers.length (assignClusters points centers)).getD i
            (0, 0, 0)).2.1 /
          (((clusterSums centers.length (assignClusters points centers)).getD i
            (0, 0, 0)).2.2 : ℚ))
      else ((rand i).1 * 780 + 10, (rand i).2 * 580 + 10) := by
    unfold kmeansStep
    exact updateCentroids_getD rand _ i hslen
  rw [clusterSums_getD _ _ _ hi] at hstep
  have hsum1 : ((assignClusters points centers).filter
        (fun pc => pc.2 == i)).map (fun pc => pc.1.1) =
      (clusterMembers points centers i).map (fun p => p.1) := by
    unfold clusterMembers
    rw [List.map_map]
    rfl
  have hsum2 : ((assignClusters points centers).filter
        (fun pc => pc.2 == i)).map (fun pc => pc.1.2) =
      (clusterMembers points centers i).map (fun p => p.2) := by
    unfold clusterMembers
    rw [List.map_map]
    rfl
  have hlen : ((assignClusters points centers).filter
        (fun pc => pc.2 == i)).length = (clusterMembers points centers i).length := by
    unfold clusterMembers
    rw [List.length_map]
  rw [hsum1, hsum2, hlen] at hstep
  constructor
  · intro hne
    have hcnt : (clusterMembers points centers i).length ≠ 0 := by
      simpa [List.length_eq_zero] using hne
    rw [hstep, if_pos (by simpa using hcnt)]
  · intro heq
    have hcnt : (clusterMembers points centers i).length = 0 := by
      rw [heq]; rfl
    rw [hstep, if_neg (by simp [hcnt])]
    refine ⟨rfl, by linarith, by linarith, by linarith, by linarith⟩

/-- Witness for C8: one centroid, no points — the empty cluster is
reinitialized inside the sampling bounds. -/
theorem kmeansStep_centroid_update_witness :
    (0 : ℕ) < ([((5:ℚ), (5:ℚ))] : List (ℚ × ℚ)).length ∧
      (0:ℚ) ≤ 1/2 ∧ ((1:ℚ)/2) < 1 ∧
      clusterMembers [] [((5:ℚ), (5:ℚ))] 0 = [] ∧
      ((kmeansStep (fun _ => ((1:ℚ)/2, (1:ℚ)/2)) [] [((5:ℚ), (5:ℚ))]).getD 0
          (0, 0) =
        ((1:ℚ)/2 * 780 + 10, (1:ℚ)/2 * 580 + 10) ∧
        10 ≤ (1:ℚ)/2 * 780 + 10 ∧ (1:ℚ)/2 * 780 + 10 < 790 ∧
        10 ≤ (1:ℚ)/2 * 580 + 10 ∧ (1:ℚ)/2 * 580 + 10 < 590) :=
  ⟨by decide, by norm_num, by norm_num, rfl,
    (kmeansStep_centroid_update (fun _ => ((1:ℚ)/2, (1:ℚ)/2)) [] [(5, 5)] 0
      (by decide) (by norm_num) (by norm_num) (by norm_num) (by norm_num)).2 rfl⟩

/-! ### KNN classification (`handleCanvasClick`, knn.tsx)

On a canvas click the code computes squared Euclidean distances to all
training points, sorts ascending (`(a, b) => a.dist - b.dist`; JavaScript's
sort is stable and so is insertion sort, and ties compare equal only on
equal distances, so the embedding is faithful), takes the first `k`, counts
votes per label, collects the labels attaining the maximal count, and
predicts the label of the first — hence closest — point of `topK` whose
label is among the tied ones. -/

/-- A labeled training point of the KNN page. -/
structure KPt where
  x : ℚ
  y : ℚ
  label : ℤ
deriving DecidableEq, Repr

/-- `data.map(d => ({...d, dist: (d.x-x)**2 + (d.y-y)**2}))`. -/
def knnDistances (data : List KPt) (q : ℚ × ℚ) : List (KPt × ℚ) :=
  data.map (fun d => (d, (d.x - q.1) ^ 2 + (d.y - q.2) ^ 2))

/-- The comparator `(a, b) => a.dist - b.dist`. -/
def distLe (a b : KPt × ℚ) : Prop := a.2 ≤ b.2

instance (a b : KPt × ℚ) : Decidable (distLe a b) := by
  unfold distLe; infer_instance

instance : IsTotal (KPt × ℚ) distLe := ⟨fun a b => le_total a.2 b.2⟩
instance : IsTrans (KPt × ℚ) distLe := ⟨fun _ _ _ h1 h2 => le_trans h1 h2⟩

/-- `distances.sort(...).slice(0, k)`. -/
def knnTopK (data : List KPt) (k : ℕ) (q : ℚ × ℚ) : List (KPt × ℚ) :=
  (List.insertionSort distLe (knnDistances data q)).take k

/-- The vote count of a label among the top-k neighbours (the `counts`
record). -/
def knnCounts (data : List KPt) (k : ℕ) (q : ℚ × ℚ) (lab : ℤ) : ℕ :=
  ((knnTopK data k q).filter (fun p => p.1.label == lab)).length

/-- `Math.max(...Object.values(counts))`: the same value as the maximum of
`counts[p.label]` over `p ∈ topK`, since every key of `counts` is the label
of some top-k point. -/
def knnMaxCount (data : List KPt) (k : ℕ) (q : ℚ × ℚ) : ℕ :=
  ((knnTopK data k q).map (fun p => knnCounts data k q p.1.label)).foldr max 0

/-- `topK.find(p => tiedLabels.includes(p.label))?.label`: the prediction. -/
def knnPredict (data : List KPt) (k : ℕ) (q : ℚ × ℚ) : Option ℤ :=
  ((knnTopK data k q).find?
    (fun p => knnCounts data k q p.1.label == knnMaxCount data k q)).map
    (fun p => p.1.label)

theorem foldr_max_le {l : List ℕ} {x : ℕ} (hx : x ∈ l) :
    x ≤ l.foldr max 0 := by
  induction l with
  | nil => simp at hx
  | cons a t ih =>
    rcases List.mem_cons.mp hx with hx | hx
    · subst hx; exact le_max_left _ _
    · exact le_trans (ih hx) (le_max_right _ _)

theorem foldr_max_mem (l : List ℕ) : l.foldr max 0 = 0 ∨ l.foldr max 0 ∈ l := by
  induction l with
  | nil => exact Or.inl rfl
  | cons a t ih =>
    rcases le_total a (t.foldr max 0) with h | h
    · rcases ih with ih | ih
      · rw [List.foldr_cons, max_eq_right h, ih]
        have : a = 0 := by omega
        subst this
        exact Or.inr (by simp [ih])
      · rw [List.foldr_cons, max_eq_right h]
        exact Or.inr (List.mem_cons_of_mem _ ih)
    · rw [List.foldr_cons, max_eq_left h]
      exact Or.inr (by simp)

theorem find?_min_sorted {pr : KPt × ℚ → Bool} :
    ∀ (l : List (KPt × ℚ)) (p : KPt × ℚ), List.Pairwise distLe l →
      l.find? pr = some p → ∀ r ∈ l, pr r = true → p.2 ≤ r.2 := by
  intro l
  induction l with
  | nil => intro p _ hf; simp at hf
  | cons a t ih =>
    intro p hpair hf r hr hpr
    rw [List.find?_cons] at hf
    split at hf
    · have hpa : a = p := by simpa using hf
      subst hpa
      rcases List.mem_cons.mp hr with hr | hr
      · rw [hr]
      · exact (List.pairwise_cons.mp hpair).1 r hr
    · rcases List.mem_cons.mp hr with hr | hr
      · rename_i hna
        rw [hr] at hpr
        exact absurd hpr (by simpa using hna)
      · exact ih p (List.pairwise_cons.mp hpair).2 hf r hr hpr

/-- **C4.** With a non-empty dataset (and `k ≥ 1`, the slider minimum), the
KNN prediction is the label of some top-k point `p` whose label attains the
maximal vote count among the k nearest neighbours, and `p` is at minimal
squared distance among all top-k points whose labels are tied at that
maximal count — i.e. on a tie, the prediction is the label of the closest
point among the tied labels. -/
theorem knnPredict_spec (data : List KPt) (k : ℕ) (q : ℚ × ℚ)
    (hd : data ≠ []) (hk : 1 ≤ k) :
    ∃ p ∈ knnTopK data k q,
      knnPredict data k q = some p.1.label ∧
      knnCounts data k q p.1.label = knnMaxCount data k q ∧
      ∀ r ∈ knnTopK data k q,
        knnCounts data k q r.1.label = knnMaxCount data k q → p.2 ≤ r.2 := by
  have hlen : 1 ≤ (knnTopK data k q).length := by
    unfold knnTopK
    rw [List.length_take, (List.perm_insertionSort distLe _).length_eq]
    unfold knnDistances
    rw [List.length_map]
    have := List.length_pos.mpr hd
    omega
  have htop : knnTopK data k q ≠ [] := by
    intro h
    rw [h] at hlen
    simp at hlen
  -- some top-k element attains the maximal count
  have hmem1 : ∀ p ∈ knnTopK data k q, 1 ≤ knnCounts data k q p.1.label := by
    intro p hp
    unfold knnCounts
    have : p ∈ (knnTopK data k q).filter (fun r => r.1.label == p.1.label) :=
      List.mem_filter.mpr ⟨hp, by simp⟩
    have := List.length_pos.mpr (List.ne_nil_of_mem this)
    omega
  obtain ⟨p1, hp1, hcnt1⟩ :
      ∃ p ∈ knnTopK data k q,
        knnCounts data k q p.1.label = knnMaxCount data k q := by
    rcases foldr_max_mem
        ((knnTopK data k q).map (fun p => knnCounts data k q p.1.label)) with
      h0 | hmem
    · exfalso
      match hK : knnTopK data k q with
      | [] => exact htop hK
      | p0 :: rest =>
        have h1 := hmem1 p0 (by rw [hK]; simp)
        have h2 : knnCounts data k q p0.1.label ≤ knnMaxCount data k q := by
          refine foldr_max_le ?_
          refine List.mem_map_of_mem _ ?_
          rw [hK]; simp
        unfold knnMaxCount at h0 h2
        omega
    · obtain ⟨p1, hp1, hc⟩ := List.mem_map.mp hmem
      exact ⟨p1, hp1, hc⟩
  -- find? succeeds
  have hfind : ∃ p, (knnTopK data k q).find?
      (fun p => knnCounts data k q p.1.label == knnMaxCount data k q) =
        some p := by
    match hf : (knnTopK data k q).find?
        (fun p => knnCounts data k q p.1.label == knnMaxCount data k q) with
    | some p => exact ⟨p, hf⟩
    | none =>
      exfalso
      have := List.find?_eq_none.mp hf p1 hp1
      simp at this
      exact this hcnt1
  obtain ⟨p, hp⟩ := hfind
  have hpmem : p ∈ knnTopK data k q := List.mem_of_find?_eq_some hp
  have hpcnt : knnCounts data k q p.1.label = knnMaxCount data k q := by
    have := List.find?_some hp
    simpa using this
  have hsorted : List.Pairwise distLe (knnTopK data k q) := by
    refine List.Pairwise.sublist (List.take_sublist _ _) ?_
    exact List.sorted_insertionSort distLe (knnDistances data q)
  refine ⟨p, hpmem, ?_, hpcnt, ?_⟩
  · unfold knnPredict
    rw [hp]
    rfl
  · intro r hr hrc
    refine find?_min_sorted _ p hsorted hp r hr ?_
    simpa using hrc

/-- Witness for C4: two training points, `k = 1`, query at the origin. -/
theorem knnPredict_spec_witness :
    ([⟨0, 0, 0⟩, ⟨10, 0, 1⟩] : List KPt) ≠ [] ∧ 1 ≤ 1 ∧
      (∃ p ∈ knnTopK [⟨0, 0, 0⟩, ⟨10, 0, 1⟩] 1 (0, 0),
        knnPredict [⟨0, 0, 0⟩, ⟨10, 0, 1⟩] 1 (0, 0) = some p.1.label ∧
        knnCounts [⟨0, 0, 0⟩, ⟨10, 0, 1⟩] 1 (0, 0) p.1.label =
          knnMaxCount [⟨0, 0, 0⟩, ⟨10, 0, 1⟩] 1 (0, 0) ∧
        ∀ r ∈ knnTopK [⟨0, 0, 0⟩, ⟨10, 0, 1⟩] 1 (0, 0),
          knnCounts [⟨0, 0, 0⟩, ⟨10, 0, 1⟩] 1 (0, 0) r.1.label =
            knnMaxCount [⟨0, 0, 0⟩, ⟨10, 0, 1⟩] 1 (0, 0) → p.2 ≤ r.2) :=
  ⟨by simp, le_refl 1, knnPredict_spec _ _ _ (by simp) (le_refl 1)⟩
